import Mathlib

/-!
Verification of the NewCode codec (`main.py`).

Strings are modelled as `List Char`, byte strings as `List Nat` (each value
below 256), and Python exceptions as `Except`/`Option`. The division loops of
the source are modelled with a fuel argument equal to the starting number,
which is always enough fuel since the number strictly decreases.
-/

namespace NewCode

/-- Embedding of `CHARSET = 'ABCDEFGHJKLMNPQRSTUVWXYZ23456789'`. -/
def CHARSET : List Char :=
  ['A', 'B', 'C', 'D', 'E', 'F', 'G', 'H', 'J', 'K', 'L', 'M',
   'N', 'P', 'Q', 'R', 'S', 'T', 'U', 'V', 'W', 'X', 'Y', 'Z',
   '2', '3', '4', '5', '6', '7', '8', '9']

/-- Embedding of `BASE = len(CHARSET)`. -/
def BASE : Nat := CHARSET.length

/-- Repeated division loop shared by `int_to_crypttext` (with `B = BASE`) and
`int_to_text`/`int_to_file` (with `B = 256`): returns the list of remainders,
least significant first. The first argument is fuel. -/
def toDigitsAux (B : Nat) : Nat → Nat → List Nat
  | _, 0 => []
  | 0, _ => []
  | fuel + 1, n + 1 => (n + 1) % B :: toDigitsAux B fuel ((n + 1) / B)

/-- Remainders of repeated division of `n` by `B`, least significant first. -/
def natDigits (B n : Nat) : List Nat := toDigitsAux B n n

/-- The `while num > 0` loop of `int_to_crypttext`: base-`BASE` digits of `num`,
least significant first. -/
def digitsLSB (n : Nat) : List Nat := natDigits BASE n

/-- The `while num > 0` loop of `int_to_text`: base-256 bytes of `num`,
least significant first. -/
def bytesLSB (n : Nat) : List Nat := natDigits 256 n

/-- Indexing `CHARSET[d]` (the index is always in range at call sites). -/
def charOf (d : Nat) : Char := CHARSET.getD d 'A'

/-- Embedding of `group.ljust(4, 'A')` applied to a group of at most 4 chars. -/
def padTo4 (g : List Char) : List Char := g ++ List.replicate (4 - g.length) 'A'

/-- The grouping loop of `int_to_crypttext`: split into chunks of 4 from the
most significant end, left-justify the final short chunk with `'A'`. -/
def makeGroups : List Char → List (List Char)
  | [] => []
  | a :: b :: c :: d :: rest => padTo4 [a, b, c, d] :: makeGroups rest
  | cs => [padTo4 cs]

/-- Embedding of `'-'.join(grouped)`. -/
def joinHyphen : List (List Char) → List Char
  | [] => []
  | [g] => g
  | g :: gs => g ++ '-' :: joinHyphen gs

/-- Embedding of `int_to_crypttext`: convert an integer to a NewCode string.
The digit characters are produced least significant first, reversed to most
significant first, grouped into padded blocks of 4, each block is reversed,
and the blocks are joined with hyphens. -/
def int_to_crypttext (num : Nat) : List Char :=
  if num = 0 then [charOf 0]
  else joinHyphen ((makeGroups (((digitsLSB num).map charOf).reverse)).map List.reverse)

/-- Embedding of Python `str.upper()` restricted to ASCII case mapping. -/
def asciiUpper (c : Char) : Char :=
  if 97 ≤ c.toNat ∧ c.toNat ≤ 122 then Char.ofNat (c.toNat - 32) else c

/-- Embedding of `crypttext.split('-')`. -/
def splitHyphen : List Char → List (List Char)
  | [] => [[]]
  | c :: rest =>
    if c = '-' then [] :: splitHyphen rest
    else
      match splitHyphen rest with
      | [] => [[c]]
      | g :: gs => (c :: g) :: gs

/-- Embedding of `digit_str.rstrip('A')`. -/
def rstripA (cs : List Char) : List Char :=
  ((cs.reverse).dropWhile (fun c => c = 'A')).reverse

/-- Position scan underlying `CHARSET.index(char)` / `char not in CHARSET`. -/
def indexInAux (c : Char) : List Char → Nat → Option Nat
  | [], _ => none
  | d :: ds, i => if d = c then some i else indexInAux c ds (i + 1)

/-- First index of `c` in `CHARSET`, or `none` when `c not in CHARSET`. -/
def charIndex (c : Char) : Option Nat := indexInAux c CHARSET 0

/-- The accumulation loop of `crypttext_to_int`: `num = num * BASE + index`,
raising (modelled as `Except.error`) on a character outside `CHARSET`. -/
def foldDigits : List Char → Nat → Except Char Nat
  | [], acc => Except.ok acc
  | c :: rest, acc =>
    match charIndex c with
    | none => Except.error c
    | some i => foldDigits rest (acc * BASE + i)

/-- Embedding of `crypttext_to_int`: uppercase, split on hyphens, reverse each
group, concatenate, strip trailing `'A'` padding, then fold the digits. -/
def crypttext_to_int (ct : List Char) : Except Char Nat :=
  foldDigits (rstripA (((splitHyphen (ct.map asciiUpper)).map List.reverse).flatten)) 0

/-- Embedding of `decode_to_number` (a direct wrapper of `crypttext_to_int`). -/
def decode_to_number (ct : List Char) : Except Char Nat := crypttext_to_int ct

/-- UTF-8 encoding of a single Unicode scalar value, as performed by Python's
`str.encode('utf-8')` on one character. -/
def utf8EncodeChar (c : Char) : List Nat :=
  let n := c.toNat
  if n < 128 then [n]
  else if n < 2048 then [192 + n / 64, 128 + n % 64]
  else if n < 65536 then [224 + n / 4096, 128 + (n / 64) % 64, 128 + n % 64]
  else [240 + n / 262144, 128 + (n / 4096) % 64, 128 + (n / 64) % 64, 128 + n % 64]

/-- Embedding of `text.encode('utf-8')`. -/
def utf8EncodeStr (s : List Char) : List Nat := (s.map utf8EncodeChar).flatten

/-- Embedding of `text_to_int`: UTF-8 bytes folded big-endian,
`num = (num << 8) + byte`. -/
def text_to_int (s : List Char) : Nat :=
  (utf8EncodeStr s).foldl (fun n b => n * 256 + b) 0

/-- Two-byte tail of the strict UTF-8 decoder: the continuation byte after a
lead byte in `[0xC2, 0xDF]`. -/
def utf8Step2 (b : Nat) : List Nat → Option (Nat × List Nat)
  | b1 :: rest1 =>
    if 128 ≤ b1 ∧ b1 < 192 then some ((b - 192) * 64 + (b1 - 128), rest1) else none
  | [] => none

/-- Three-byte tail of the strict UTF-8 decoder: two continuation bytes after a
lead byte in `[0xE0, 0xEF]`, rejecting overlong forms and surrogates. -/
def utf8Step3 (b : Nat) : List Nat → Option (Nat × List Nat)
  | b1 :: b2 :: rest2 =>
    if (128 ≤ b1 ∧ b1 < 192) ∧ (128 ≤ b2 ∧ b2 < 192) then
      if (b - 224) * 4096 + (b1 - 128) * 64 + (b2 - 128) < 2048 ∨
         (55296 ≤ (b - 224) * 4096 + (b1 - 128) * 64 + (b2 - 128) ∧
          (b - 224) * 4096 + (b1 - 128) * 64 + (b2 - 128) < 57344) then none
      else some ((b - 224) * 4096 + (b1 - 128) * 64 + (b2 - 128), rest2)
    else none
  | _ => none

/-- Four-byte tail of the strict UTF-8 decoder: three continuation bytes after
a lead byte in `[0xF0, 0xF4]`, rejecting overlong forms and values above
`0x10FFFF`. -/
def utf8Step4 (b : Nat) : List Nat → Option (Nat × List Nat)
  | b1 :: b2 :: b3 :: rest3 =>
    if (128 ≤ b1 ∧ b1 < 192) ∧ (128 ≤ b2 ∧ b2 < 192) ∧ (128 ≤ b3 ∧ b3 < 192) then
      if (b - 240) * 262144 + (b1 - 128) * 4096 + (b2 - 128) * 64 + (b3 - 128) < 65536 ∨
         1114111 < (b - 240) * 262144 + (b1 - 128) * 4096 + (b2 - 128) * 64 + (b3 - 128)
      then none
      else some ((b - 240) * 262144 + (b1 - 128) * 4096 + (b2 - 128) * 64 + (b3 - 128), rest3)
    else none
  | _ => none

/-- Decode one code point from the front of a strict UTF-8 byte sequence,
returning its scalar value and the remaining bytes; `none` on any malformed
prefix (stray continuation byte, overlong form, surrogate, out of range). -/
def utf8Step : List Nat → Option (Nat × List Nat)
  | [] => none
  | b :: rest =>
    if b < 128 then some (b, rest)
    else if b < 194 then none
    else if b < 224 then utf8Step2 b rest
    else if b < 240 then utf8Step3 b rest
    else if b < 245 then utf8Step4 b rest
    else none

/-- Recursive loop of the strict UTF-8 decoder, with fuel (one unit per byte
is always enough, since every step consumes at least one byte). -/
def utf8DecodeAux : Nat → List Nat → Option (List Char)
  | _, [] => some []
  | 0, _ :: _ => none
  | fuel + 1, b :: rest =>
    match utf8Step (b :: rest) with
    | none => none
    | some (n, rest2) => (utf8DecodeAux fuel rest2).map (fun s => Char.ofNat n :: s)

/-- Strict UTF-8 decoding as performed by Python's `bytes.decode('utf-8')`:
rejects stray continuation bytes, overlong forms, surrogates, and values above
`0x10FFFF`. -/
def utf8Decode (bs : List Nat) : Option (List Char) := utf8DecodeAux bs.length bs

/-- Embedding of `int_to_text`: `0` maps to the single NUL character, any other
integer to the UTF-8 decoding of its minimal big-endian byte sequence; `none`
models the `ValueError` on invalid UTF-8. -/
def int_to_text (num : Nat) : Option (List Char) :=
  if num = 0 then some [Char.ofNat 0]
  else utf8Decode (bytesLSB num).reverse

/-- Embedding of `encode_text`. -/
def encode_text (s : List Char) : List Char := int_to_crypttext (text_to_int s)

/-- Embedding of `decode_to_text`; `none` models either exception. -/
def decode_to_text (ct : List Char) : Option (List Char) :=
  match crypttext_to_int ct with
  | Except.error _ => none
  | Except.ok n => int_to_text n

/-- Value of a least-significant-first digit list in base `B`. -/
def valLSB (B : Nat) : List Nat → Nat
  | [] => 0
  | d :: ds => d + B * valLSB B ds

/-- Grouping that follows the words of the specification's Policy A: partition
the digit sequence into consecutive blocks of 4, most significant first, and
leave the trailing partial block short, with no padding and no reversal. -/
def specGroupPolicyA : List Char → List (List Char)
  | [] => []
  | a :: b :: c :: d :: rest => [a, b, c, d] :: specGroupPolicyA rest
  | cs => [cs]

/-- Number encoder that follows the words of the specification (Policy A):
most-significant-first digit sequence, hyphen-joined blocks of 4, trailing
block left short. Used only to compare the specified format with
`int_to_crypttext`. -/
def specEncodeNumberPolicyA (num : Nat) : List Char :=
  if num = 0 then [charOf 0]
  else joinHyphen (specGroupPolicyA (((digitsLSB num).map charOf).reverse))

theorem BASE_eq : BASE = 32 := rfl

theorem two_le_BASE : 2 ≤ BASE := by decide

theorem toDigitsAux_zero (B fuel : Nat) : toDigitsAux B fuel 0 = [] := by
  cases fuel <;> rfl

theorem toDigitsAux_succ (B fuel n : Nat) :
    toDigitsAux B (fuel + 1) (n + 1) = (n + 1) % B :: toDigitsAux B fuel ((n + 1) / B) := rfl

theorem toDigitsAux_congr (B : Nat) (hB : 2 ≤ B) :
    ∀ fuel fuel' n, n ≤ fuel → n ≤ fuel' → toDigitsAux B fuel n = toDigitsAux B fuel' n := by
  intro fuel
  induction fuel with
  | zero =>
    intro fuel' n hn _
    have hn0 : n = 0 := Nat.le_zero.mp hn
    subst hn0
    rw [toDigitsAux_zero, toDigitsAux_zero]
  | succ f ih =>
    intro fuel' n hn hn'
    cases n with
    | zero => rw [toDigitsAux_zero, toDigitsAux_zero]
    | succ m =>
      cases fuel' with
      | zero => exact absurd hn' (by omega)
      | succ f' =>
        rw [toDigitsAux_succ, toDigitsAux_succ]
        have hlt : (m + 1) / B < m + 1 := Nat.div_lt_self (Nat.succ_pos m) hB
        congr 1
        exact ih f' ((m + 1) / B) (by omega) (by omega)

theorem natDigits_zero (B : Nat) : natDigits B 0 = [] := rfl

theorem natDigits_succ (B : Nat) (hB : 2 ≤ B) (n : Nat) (hn : n ≠ 0) :
    natDigits B n = n % B :: natDigits B (n / B) := by
  obtain ⟨m, rfl⟩ : ∃ m, n = m + 1 := ⟨n - 1, by omega⟩
  show toDigitsAux B (m + 1) (m + 1) = _
  rw [toDigitsAux_succ]
  have hlt : (m + 1) / B < m + 1 := Nat.div_lt_self (Nat.succ_pos m) hB
  congr 1
  exact toDigitsAux_congr B hB m ((m + 1) / B) ((m + 1) / B) (by omega) le_rfl

theorem valLSB_natDigits (B : Nat) (hB : 2 ≤ B) : ∀ n, valLSB B (natDigits B n) = n := by
  intro n
  induction n using Nat.strong_induction_on with
  | _ n ih =>
    by_cases hn : n = 0
    · subst hn; rfl
    · rw [natDigits_succ B hB n hn]
      have hlt : n / B < n := Nat.div_lt_self (Nat.pos_of_ne_zero hn) hB
      show n % B + B * valLSB B (natDigits B (n / B)) = n
      rw [ih (n / B) hlt, Nat.mod_add_div]

theorem natDigits_lt (B : Nat) (hB : 2 ≤ B) : ∀ n d, d ∈ natDigits B n → d < B := by
  intro n
  induction n using Nat.strong_induction_on with
  | _ n ih =>
    intro d hd
    by_cases hn : n = 0
    · rw [hn, natDigits_zero] at hd
      exact absurd hd (List.not_mem_nil d)
    · rw [natDigits_succ B hB n hn] at hd
      rcases List.mem_cons.mp hd with h | h
      · subst h; exact Nat.mod_lt n (by omega)
      · exact ih (n / B) (Nat.div_lt_self (Nat.pos_of_ne_zero hn) hB) d h

theorem natDigits_ne_nil (B : Nat) (hB : 2 ≤ B) (n : Nat) (hn : n ≠ 0) :
    natDigits B n ≠ [] := by
  rw [natDigits_succ B hB n hn]
  exact List.cons_ne_nil _ _

theorem natDigits_head (B : Nat) (hB : 2 ≤ B) (n : Nat) (hn : n ≠ 0) :
    (natDigits B n).head? = some (n % B) := by
  rw [natDigits_succ B hB n hn]; rfl

theorem valLSB_pos (B : Nat) (hB : 2 ≤ B) :
    ∀ L : List Nat, L ≠ [] → L.getLast? ≠ some 0 → 0 < valLSB B L := by
  intro L
  induction L with
  | nil => intro h _; exact absurd rfl h
  | cons d L ih =>
    intro _ hlast
    cases L with
    | nil =>
      have hd : d ≠ 0 := fun h => hlast (by simp [h])
      show 0 < d + B * valLSB B []
      show 0 < d + B * 0
      omega
    | cons e L' =>
      have h2 : (e :: L').getLast? ≠ some 0 := by
        rwa [List.getLast?_cons_cons] at hlast
      have hv := ih (List.cons_ne_nil e L') h2
      have hp : 0 < B * valLSB B (e :: L') := Nat.mul_pos (by omega) hv
      show 0 < d + B * valLSB B (e :: L')
      omega

theorem natDigits_valLSB (B : Nat) (hB : 2 ≤ B) :
    ∀ L : List Nat, (∀ d ∈ L, d < B) → L.getLast? ≠ some 0 → natDigits B (valLSB B L) = L := by
  intro L
  induction L with
  | nil => intro _ _; rfl
  | cons d L ih =>
    intro hlt hlast
    cases L with
    | nil =>
      have hd : d ≠ 0 := fun h => hlast (by simp [h])
      have hdB : d < B := hlt d (List.mem_cons_self d _)
      have hval : valLSB B [d] = d := by show d + B * 0 = d; omega
      rw [hval, natDigits_succ B hB d hd, Nat.mod_eq_of_lt hdB, Nat.div_eq_of_lt hdB,
        natDigits_zero]
    | cons e L' =>
      have h2 : (e :: L').getLast? ≠ some 0 := by
        rwa [List.getLast?_cons_cons] at hlast
      have hv : 0 < valLSB B (e :: L') := valLSB_pos B hB _ (List.cons_ne_nil e L') h2
      have hih := ih (fun x hx => hlt x (List.mem_cons_of_mem d hx)) h2
      have hdB : d < B := hlt d (List.mem_cons_self d _)
      show natDigits B (d + B * valLSB B (e :: L')) = d :: e :: L'
      have hne : d + B * valLSB B (e :: L') ≠ 0 := by
        have : 0 < B * valLSB B (e :: L') := Nat.mul_pos (by omega) hv
        omega
      have hmod : (d + B * valLSB B (e :: L')) % B = d := by
        rw [Nat.add_mul_mod_self_left, Nat.mod_eq_of_lt hdB]
      have hdiv : (d + B * valLSB B (e :: L')) / B = valLSB B (e :: L') := by
        rw [Nat.add_mul_div_left _ _ (by omega : 0 < B), Nat.div_eq_of_lt hdB, Nat.zero_add]
      rw [natDigits_succ B hB _ hne, hmod, hdiv, hih]

theorem valLSB_append_singleton (B d : Nat) :
    ∀ M : List Nat, valLSB B (M ++ [d]) = valLSB B M + d * B ^ M.length := by
  intro M
  induction M with
  | nil => simp [valLSB]
  | cons e M ih =>
    show e + B * valLSB B (M ++ [d]) = (e + B * valLSB B M) + d * B ^ (M.length + 1)
    rw [ih]
    ring

theorem foldl_mul_add (B : Nat) :
    ∀ (L : List Nat) (a : Nat),
      L.foldl (fun x d => x * B + d) a = a * B ^ L.length + valLSB B L.reverse := by
  intro L
  induction L with
  | nil => intro a; simp [valLSB]
  | cons d L ih =>
    intro a
    simp only [List.foldl_cons, List.reverse_cons, List.length_cons]
    rw [ih (a * B + d), valLSB_append_singleton, List.length_reverse]
    ring

theorem charOf_mem : ∀ d, d < 32 → charOf d ∈ CHARSET := by decide

theorem charIndex_charOf : ∀ d, d < 32 → charIndex (charOf d) = some d := by decide

theorem charOf_ne_A : ∀ d, d < 32 → d ≠ 0 → charOf d ≠ 'A' := by decide

theorem A_mem_CHARSET : 'A' ∈ CHARSET := by decide

theorem hyphen_not_mem_CHARSET : '-' ∉ CHARSET := by decide

theorem asciiUpper_CHARSET : ∀ c ∈ CHARSET, asciiUpper c = c := by decide

theorem asciiUpper_hyphen : asciiUpper '-' = '-' := by decide

theorem indexInAux_eq_none (c : Char) :
    ∀ (L : List Char) (i : Nat), indexInAux c L i = none ↔ c ∉ L := by
  intro L
  induction L with
  | nil => intro i; simp [indexInAux]
  | cons d ds ih =>
    intro i
    by_cases hdc : d = c
    · subst hdc; simp [indexInAux]
    · simp [indexInAux, hdc, ih (i + 1), Ne.symm hdc]

theorem charIndex_eq_none_iff (c : Char) : charIndex c = none ↔ c ∉ CHARSET :=
  indexInAux_eq_none c CHARSET 0

theorem foldDigits_cons (c : Char) (rest : List Char) (a : Nat) :
    foldDigits (c :: rest) a =
      match charIndex c with
      | none => Except.error c
      | some i => foldDigits rest (a * BASE + i) := rfl

theorem foldDigits_ok (L : List Char) :
    ∀ a, (∀ c ∈ L, c ∈ CHARSET) → ∃ n, foldDigits L a = Except.ok n := by
  induction L with
  | nil => intro a _; exact ⟨a, rfl⟩
  | cons c rest ih =>
    intro a h
    have hc : c ∈ CHARSET := h c (List.mem_cons_self c rest)
    have hne : charIndex c ≠ none := fun hn => (charIndex_eq_none_iff c).mp hn hc
    obtain ⟨i, hi⟩ := Option.ne_none_iff_exists'.mp hne
    rw [foldDigits_cons, hi]
    exact ih (a * BASE + i) (fun x hx => h x (List.mem_cons_of_mem c hx))

theorem foldDigits_error (L : List Char) :
    ∀ a, (∃ c ∈ L, c ∉ CHARSET) →
      ∃ c, foldDigits L a = Except.error c ∧ c ∉ CHARSET := by
  induction L with
  | nil =>
    intro a h
    obtain ⟨c, hc, _⟩ := h
    exact absurd hc (List.not_mem_nil c)
  | cons c rest ih =>
    intro a h
    cases hci : charIndex c with
    | none =>
      refine ⟨c, ?_, (charIndex_eq_none_iff c).mp hci⟩
      rw [foldDigits_cons, hci]
    | some i =>
      have hcmem : c ∈ CHARSET := by
        by_contra hc
        rw [(charIndex_eq_none_iff c).mpr hc] at hci
        exact Option.noConfusion hci
      obtain ⟨x, hx, hxc⟩ := h
      rcases List.mem_cons.mp hx with rfl | hx'
      · exact absurd hcmem hxc
      · obtain ⟨c', h1, h2⟩ := ih (a * BASE + i) ⟨x, hx', hxc⟩
        refine ⟨c', ?_, h2⟩
        rw [foldDigits_cons, hci]
        exact h1

theorem foldDigits_map_charOf :
    ∀ (ds : List Nat) (a : Nat), (∀ d ∈ ds, d < 32) →
      foldDigits (ds.map charOf) a = Except.ok (ds.foldl (fun x d => x * BASE + d) a) := by
  intro ds
  induction ds with
  | nil => intro a _; rfl
  | cons d ds ih =>
    intro a h
    have hd : d < 32 := h d (List.mem_cons_self d ds)
    rw [List.map_cons, foldDigits_cons, charIndex_charOf d hd]
    show foldDigits (ds.map charOf) (a * BASE + d) = _
    rw [ih (a * BASE + d) (fun x hx => h x (List.mem_cons_of_mem d hx))]
    rfl

theorem map_id_of_mem {α : Type} (f : α → α) :
    ∀ L : List α, (∀ c ∈ L, f c = c) → L.map f = L := by
  intro L
  induction L with
  | nil => intro _; rfl
  | cons c rest ih =>
    intro h
    rw [List.map_cons, h c (List.mem_cons_self c rest),
      ih (fun x hx => h x (List.mem_cons_of_mem c hx))]

theorem mem_joinHyphen :
    ∀ (gs : List (List Char)) (c : Char),
      c ∈ joinHyphen gs → (∃ g ∈ gs, c ∈ g) ∨ c = '-' := by
  intro gs
  induction gs with
  | nil => intro c hc; exact absurd hc (List.not_mem_nil c)
  | cons g gs ih =>
    intro c hc
    cases gs with
    | nil =>
      have hc' : c ∈ g := hc
      exact Or.inl ⟨g, List.mem_cons_self g [], hc'⟩
    | cons g' gs' =>
      have hc' : c ∈ g ++ '-' :: joinHyphen (g' :: gs') := hc
      rcases List.mem_append.mp hc' with h | h
      · exact Or.inl ⟨g, List.mem_cons_self _ _, h⟩
      · rcases List.mem_cons.mp h with rfl | h'
        · exact Or.inr rfl
        · rcases ih c h' with ⟨g₀, hg₀, hcg₀⟩ | h''
          · exact Or.inl ⟨g₀, List.mem_cons_of_mem g hg₀, hcg₀⟩
          · exact Or.inr h''

theorem splitHyphen_exists (cs : List Char) : ∃ h t, splitHyphen cs = h :: t := by
  induction cs with
  | nil => exact ⟨[], [], rfl⟩
  | cons c rest ih =>
    by_cases hc : c = '-'
    · exact ⟨[], splitHyphen rest, by simp [splitHyphen, hc]⟩
    · obtain ⟨h, t, ht⟩ := ih
      exact ⟨c :: h, t, by simp [splitHyphen, hc, ht]⟩

theorem splitHyphen_append (g : List Char) :
    ∀ (cs h : List Char) (t : List (List Char)), '-' ∉ g →
      splitHyphen cs = h :: t → splitHyphen (g ++ cs) = (g ++ h) :: t := by
  induction g with
  | nil => intro cs h t _ hs; simpa using hs
  | cons c g ih =>
    intro cs h t hg hs
    have hc : c ≠ '-' := by
      intro hh
      subst hh
      exact hg (List.mem_cons_self _ _)
    have hrec := ih cs h t (fun hm => hg (List.mem_cons_of_mem c hm)) hs
    show splitHyphen (c :: (g ++ cs)) = ((c :: g) ++ h) :: t
    simp [splitHyphen, hc, hrec]

theorem splitHyphen_joinHyphen :
    ∀ gs : List (List Char), gs ≠ [] → (∀ g ∈ gs, '-' ∉ g) →
      splitHyphen (joinHyphen gs) = gs := by
  intro gs
  induction gs with
  | nil => intro h _; exact absurd rfl h
  | cons g gs ih =>
    intro _ hno
    cases gs with
    | nil =>
      have h0 : splitHyphen ([] : List Char) = [] :: [] := rfl
      have h1 := splitHyphen_append g [] [] [] (hno g (List.mem_cons_self _ _)) h0
      show splitHyphen g = [g]
      simpa using h1
    | cons g' gs' =>
      have hrec' := ih (List.cons_ne_nil g' gs')
        (fun x hx => hno x (List.mem_cons_of_mem g hx))
      have hsplit : splitHyphen ('-' :: joinHyphen (g' :: gs')) =
          [] :: splitHyphen (joinHyphen (g' :: gs')) := by
        simp [splitHyphen]
      have h1 := splitHyphen_append g ('-' :: joinHyphen (g' :: gs')) []
        (splitHyphen (joinHyphen (g' :: gs'))) (hno g (List.mem_cons_self _ _)) hsplit
      show splitHyphen (g ++ '-' :: joinHyphen (g' :: gs')) = g :: g' :: gs'
      rw [h1, hrec']
      simp

theorem dropWhile_replicate_A (k : Nat) :
    ∀ t : List Char, (List.replicate k 'A' ++ t).dropWhile (fun c => c = 'A') =
      t.dropWhile (fun c => c = 'A') := by
  induction k with
  | zero => intro t; rfl
  | succ k ih => intro t; simp only [List.replicate, List.cons_append]; simp [ih t]

theorem rstripA_append_replicate (cs : List Char) (k : Nat) :
    rstripA (cs ++ List.replicate k 'A') = rstripA cs := by
  unfold rstripA
  rw [List.reverse_append, List.reverse_replicate, dropWhile_replicate_A]

theorem rstripA_last_ne (cs : List Char) (c : Char) (hlast : cs.getLast? = some c)
    (hne : c ≠ 'A') : rstripA cs = cs := by
  unfold rstripA
  obtain ⟨t, ht⟩ : ∃ t, cs.reverse = c :: t := by
    have hh : cs.reverse.head? = some c := by rw [List.head?_reverse]; exact hlast
    cases hrev : cs.reverse with
    | nil => rw [hrev] at hh; exact absurd hh (by simp)
    | cons x t =>
      rw [hrev] at hh
      simp only [List.head?_cons, Option.some.injEq] at hh
      exact ⟨t, by rw [hh]⟩
  rw [ht, List.dropWhile_cons_of_neg (by simp [hne]), ← ht, List.reverse_reverse]

theorem mem_dropWhile_A (c : Char) (hne : c ≠ 'A') :
    ∀ L : List Char, c ∈ L → c ∈ L.dropWhile (fun x => x = 'A') := by
  intro L
  induction L with
  | nil => intro h; exact absurd h (List.not_mem_nil c)
  | cons a rest ih =>
    intro h
    by_cases ha : a = 'A'
    · subst ha
      rw [List.dropWhile_cons_of_pos (by simp)]
      rcases List.mem_cons.mp h with rfl | h'
      · exact absurd rfl hne
      · exact ih h'
    · rw [List.dropWhile_cons_of_neg (by simp [ha])]
      exact h

theorem mem_rstripA (c : Char) (cs : List Char) (h : c ∈ cs) (hne : c ≠ 'A') :
    c ∈ rstripA cs := by
  unfold rstripA
  rw [List.mem_reverse]
  exact mem_dropWhile_A c hne cs.reverse (List.mem_reverse.mpr h)

theorem mem_of_mem_rstripA (c : Char) (cs : List Char) (h : c ∈ rstripA cs) : c ∈ cs := by
  unfold rstripA at h
  rw [List.mem_reverse] at h
  exact List.mem_reverse.mp (List.Sublist.subset (List.dropWhile_sublist _) h)

theorem dropWhile_A_all (L : List Char) (h : ∀ c ∈ L, c = 'A') :
    L.dropWhile (fun x => x = 'A') = [] := by
  induction L with
  | nil => rfl
  | cons a rest ih =>
    have ha : a = 'A' := h a (List.mem_cons_self a rest)
    subst ha
    rw [List.dropWhile_cons_of_pos (by simp)]
    exact ih (fun c hc => h c (List.mem_cons_of_mem _ hc))

theorem rstripA_all_A (cs : List Char) (h : ∀ c ∈ cs, c = 'A') : rstripA cs = [] := by
  unfold rstripA
  rw [dropWhile_A_all cs.reverse (fun c hc => h c (List.mem_reverse.mp hc))]
  rfl

theorem flatten_splitHyphen :
    ∀ s : List Char, (splitHyphen s).flatten = s.filter (fun c => c ≠ '-') := by
  intro s
  induction s with
  | nil => rfl
  | cons c rest ih =>
    by_cases hc : c = '-'
    · subst hc
      have hs : splitHyphen ('-' :: rest) = [] :: splitHyphen rest := by simp [splitHyphen]
      rw [hs]
      simp only [List.flatten_cons, List.nil_append, ih]
      simp [List.filter_cons]
    · obtain ⟨h, t, ht⟩ := splitHyphen_exists rest
      have hs : splitHyphen (c :: rest) = (c :: h) :: t := by simp [splitHyphen, hc, ht]
      rw [hs]
      have hflat : ((c :: h) :: t).flatten = c :: (h :: t).flatten := by simp
      rw [hflat, ← ht, ih]
      simp [List.filter_cons, hc]

theorem padTo4_length (g : List Char) (h : g.length ≤ 4) : (padTo4 g).length = 4 := by
  simp only [padTo4, List.length_append, List.length_replicate]
  omega

theorem mem_padTo4 (g : List Char) (x : Char) (h : x ∈ padTo4 g) : x ∈ g ∨ x = 'A' := by
  unfold padTo4 at h
  rcases List.mem_append.mp h with h | h
  · exact Or.inl h
  · exact Or.inr (List.eq_of_mem_replicate h)

theorem flatten_makeGroups :
    ∀ cs : List Char,
      (makeGroups cs).flatten = cs ++ List.replicate ((4 - cs.length % 4) % 4) 'A'
  | [] => by simp [makeGroups]
  | [a] => by simp [makeGroups, padTo4]
  | [a, b] => by simp [makeGroups, padTo4]
  | [a, b, c] => by simp [makeGroups, padTo4]
  | a :: b :: c :: d :: rest => by
      have ih := flatten_makeGroups rest
      show (padTo4 [a, b, c, d] :: makeGroups rest).flatten = _
      have hk : (4 - (a :: b :: c :: d :: rest).length % 4) % 4 =
          (4 - rest.length % 4) % 4 := by
        simp only [List.length_cons]
        omega
      rw [hk]
      have hp : padTo4 [a, b, c, d] = [a, b, c, d] := by simp [padTo4]
      simp [hp, ih]

theorem makeGroups_length_four :
    ∀ (cs g : List Char), g ∈ makeGroups cs → g.length = 4
  | [], g => fun h => absurd h (List.not_mem_nil g)
  | [a], g => fun h => by
      have hg : g = padTo4 [a] := by simpa [makeGroups] using h
      rw [hg]; exact padTo4_length [a] (by simp)
  | [a, b], g => fun h => by
      have hg : g = padTo4 [a, b] := by simpa [makeGroups] using h
      rw [hg]; exact padTo4_length [a, b] (by simp)
  | [a, b, c], g => fun h => by
      have hg : g = padTo4 [a, b, c] := by simpa [makeGroups] using h
      rw [hg]; exact padTo4_length [a, b, c] (by simp)
  | a :: b :: c :: d :: rest, g => fun h => by
      have h' : g = padTo4 [a, b, c, d] ∨ g ∈ makeGroups rest := by
        simpa [makeGroups] using h
      rcases h' with rfl | h'
      · exact padTo4_length [a, b, c, d] (by simp)
      · exact makeGroups_length_four rest g h'

theorem makeGroups_mem :
    ∀ (cs g : List Char) (x : Char), g ∈ makeGroups cs → x ∈ g → x ∈ cs ∨ x = 'A'
  | [], g, x => fun hg _ => absurd hg (List.not_mem_nil g)
  | [a], g, x => fun hg hx => by
      have h1 : g = padTo4 [a] := by simpa [makeGroups] using hg
      subst h1
      exact mem_padTo4 [a] x hx
  | [a, b], g, x => fun hg hx => by
      have h1 : g = padTo4 [a, b] := by simpa [makeGroups] using hg
      subst h1
      exact mem_padTo4 [a, b] x hx
  | [a, b, c], g, x => fun hg hx => by
      have h1 : g = padTo4 [a, b, c] := by simpa [makeGroups] using hg
      subst h1
      exact mem_padTo4 [a, b, c] x hx
  | a :: b :: c :: d :: rest, g, x => fun hg hx => by
      have h' : g = padTo4 [a, b, c, d] ∨ g ∈ makeGroups rest := by
        simpa [makeGroups] using hg
      rcases h' with rfl | h'
      · rcases mem_padTo4 [a, b, c, d] x hx with h | h
        · left
          simp only [List.mem_cons]
          simp at h
          tauto
        · exact Or.inr h
      · rcases makeGroups_mem rest g x h' hx with h | h
        · exact Or.inl (by simp [h, List.mem_cons])
        · exact Or.inr h

theorem makeGroups_ne_nil (cs : List Char) (h : cs ≠ []) : makeGroups cs ≠ [] := by
  match cs with
  | [] => exact absurd rfl h
  | [a] => exact List.cons_ne_nil _ _
  | [a, b] => exact List.cons_ne_nil _ _
  | [a, b, c] => exact List.cons_ne_nil _ _
  | a :: b :: c :: d :: rest => exact List.cons_ne_nil _ _

theorem int_to_crypttext_mem (n : Nat) (c : Char) (h : c ∈ int_to_crypttext n) :
    c ∈ CHARSET ∨ c = '-' := by
  unfold int_to_crypttext at h
  by_cases hn : n = 0
  · rw [if_pos hn] at h
    rcases List.mem_cons.mp h with rfl | h'
    · exact Or.inl (charOf_mem 0 (by omega))
    · exact absurd h' (List.not_mem_nil c)
  · rw [if_neg hn] at h
    rcases mem_joinHyphen _ c h with ⟨g, hg, hcg⟩ | h'
    · obtain ⟨g₀, hg₀, rfl⟩ := List.mem_map.mp hg
      rw [List.mem_reverse] at hcg
      rcases makeGroups_mem _ g₀ c hg₀ hcg with h2 | h2
      · rw [List.mem_reverse] at h2
        obtain ⟨d, hd, rfl⟩ := List.mem_map.mp h2
        exact Or.inl (charOf_mem d (natDigits_lt BASE two_le_BASE n d hd))
      · subst h2; exact Or.inl A_mem_CHARSET
    · exact Or.inr h'

theorem map_reverse_map_reverse (X : List (List Char)) :
    (X.map List.reverse).map List.reverse = X := by
  rw [List.map_map]
  have h : (List.reverse ∘ List.reverse : List Char → List Char) = id := by
    funext l; simp
  rw [h, List.map_id]

theorem crypt_roundtrip (n : Nat) (h : n = 0 ∨ n % 32 ≠ 0) :
    crypttext_to_int (int_to_crypttext n) = Except.ok n := by
  rcases h with rfl | h32
  · rfl
  · have hn : n ≠ 0 := by
      intro h0; rw [h0] at h32; exact h32 rfl
    have hBASE : (2 : Nat) ≤ BASE := two_le_BASE
    have hds_ne : digitsLSB n ≠ [] := natDigits_ne_nil BASE hBASE n hn
    have hcs_ne : ((digitsLSB n).map charOf).reverse ≠ [] := by
      intro hh
      apply hds_ne
      have hl := congrArg List.length hh
      simpa using hl
    have henc : int_to_crypttext n =
        joinHyphen ((makeGroups (((digitsLSB n).map charOf).reverse)).map List.reverse) := by
      unfold int_to_crypttext
      rw [if_neg hn]
    have hg_ne : (makeGroups (((digitsLSB n).map charOf).reverse)).map List.reverse ≠ [] := by
      intro hh
      apply makeGroups_ne_nil _ hcs_ne
      have hl := congrArg List.length hh
      simpa using hl
    have hnohyp :
        ∀ g ∈ (makeGroups (((digitsLSB n).map charOf).reverse)).map List.reverse,
          '-' ∉ g := by
      intro g hg hmem
      obtain ⟨g₀, hg₀, rfl⟩ := List.mem_map.mp hg
      rw [List.mem_reverse] at hmem
      rcases makeGroups_mem _ g₀ '-' hg₀ hmem with h2 | h2
      · rw [List.mem_reverse] at h2
        obtain ⟨d, hd, hEq⟩ := List.mem_map.mp h2
        exact hyphen_not_mem_CHARSET (hEq ▸ charOf_mem d (natDigits_lt BASE hBASE n d hd))
      · exact absurd h2 (by decide)
    have hupper :
        (joinHyphen ((makeGroups (((digitsLSB n).map charOf).reverse)).map
          List.reverse)).map asciiUpper =
        joinHyphen ((makeGroups (((digitsLSB n).map charOf).reverse)).map List.reverse) := by
      apply map_id_of_mem
      intro c hc
      rw [← henc] at hc
      rcases int_to_crypttext_mem n c hc with hmem | rfl
      · exact asciiUpper_CHARSET c hmem
      · exact asciiUpper_hyphen
    have hsplit := splitHyphen_joinHyphen _ hg_ne hnohyp
    have hlast : (((digitsLSB n).map charOf).reverse).getLast? =
        some (charOf (n % BASE)) := by
      rw [List.getLast?_reverse]
      rw [show digitsLSB n = n % BASE :: natDigits BASE (n / BASE) from
        natDigits_succ BASE hBASE n hn]
      rfl
    have hA : charOf (n % BASE) ≠ 'A' := by
      apply charOf_ne_A (n % BASE) (Nat.mod_lt n (by omega))
      rw [BASE_eq]
      exact h32
    have hfold : foldDigits (((digitsLSB n).map charOf).reverse) 0 = Except.ok n := by
      have hrw : ((digitsLSB n).map charOf).reverse = (digitsLSB n).reverse.map charOf := by
        rw [List.map_reverse]
      rw [hrw]
      show foldDigits ((natDigits BASE n).reverse.map charOf) 0 = Except.ok n
      rw [foldDigits_map_charOf ((natDigits BASE n).reverse) 0
        (fun d hd => natDigits_lt BASE hBASE n d (List.mem_reverse.mp hd))]
      rw [foldl_mul_add BASE, List.reverse_reverse]
      rw [valLSB_natDigits BASE hBASE n, Nat.zero_mul, Nat.zero_add]
    show foldDigits (rstripA
      (((splitHyphen ((int_to_crypttext n).map asciiUpper)).map List.reverse).flatten)) 0 =
      Except.ok n
    rw [henc, hupper, hsplit, map_reverse_map_reverse, flatten_makeGroups,
      rstripA_append_replicate, rstripA_last_ne _ _ hlast hA]
    exact hfold

theorem utf8Step_cons (b : Nat) (rest : List Nat) :
    utf8Step (b :: rest) =
      if b < 128 then some (b, rest)
      else if b < 194 then none
      else if b < 224 then utf8Step2 b rest
      else if b < 240 then utf8Step3 b rest
      else if b < 245 then utf8Step4 b rest
      else none := rfl

theorem utf8Step2_shape (b : Nat) :
    ∀ (rest : List Nat) (n : Nat) (rest2 : List Nat),
      utf8Step2 b rest = some (n, rest2) → ∃ b1, rest = b1 :: rest2 := by
  intro rest n rest2 h
  match rest with
  | [] => exact absurd h (by simp [utf8Step2])
  | b1 :: rest1 =>
    refine ⟨b1, ?_⟩
    rw [show utf8Step2 b (b1 :: rest1) =
      if 128 ≤ b1 ∧ b1 < 192 then some ((b - 192) * 64 + (b1 - 128), rest1) else none
      from rfl] at h
    split_ifs at h
    simp only [Option.some.injEq, Prod.mk.injEq] at h
    rw [h.2]

theorem utf8Step3_shape (b : Nat) :
    ∀ (rest : List Nat) (n : Nat) (rest2 : List Nat),
      utf8Step3 b rest = some (n, rest2) → ∃ b1 b2, rest = b1 :: b2 :: rest2 := by
  intro rest n rest2 h
  match rest with
  | [] => exact absurd h (by simp [utf8Step3])
  | [b1] => exact absurd h (by simp [utf8Step3])
  | b1 :: b2 :: rest1 =>
    refine ⟨b1, b2, ?_⟩
    rw [show utf8Step3 b (b1 :: b2 :: rest1) =
      if (128 ≤ b1 ∧ b1 < 192) ∧ (128 ≤ b2 ∧ b2 < 192) then
        if (b - 224) * 4096 + (b1 - 128) * 64 + (b2 - 128) < 2048 ∨
           (55296 ≤ (b - 224) * 4096 + (b1 - 128) * 64 + (b2 - 128) ∧
            (b - 224) * 4096 + (b1 - 128) * 64 + (b2 - 128) < 57344) then none
        else some ((b - 224) * 4096 + (b1 - 128) * 64 + (b2 - 128), rest1)
      else none from rfl] at h
    split_ifs at h
    simp only [Option.some.injEq, Prod.mk.injEq] at h
    rw [h.2]

theorem utf8Step4_shape (b : Nat) :
    ∀ (rest : List Nat) (n : Nat) (rest2 : List Nat),
      utf8Step4 b rest = some (n, rest2) → ∃ b1 b2 b3, rest = b1 :: b2 :: b3 :: rest2 := by
  intro rest n rest2 h
  match rest with
  | [] => exact absurd h (by simp [utf8Step4])
  | [b1] => exact absurd h (by simp [utf8Step4])
  | [b1, b2] => exact absurd h (by simp [utf8Step4])
  | b1 :: b2 :: b3 :: rest1 =>
    refine ⟨b1, b2, b3, ?_⟩
    rw [show utf8Step4 b (b1 :: b2 :: b3 :: rest1) =
      if (128 ≤ b1 ∧ b1 < 192) ∧ (128 ≤ b2 ∧ b2 < 192) ∧ (128 ≤ b3 ∧ b3 < 192) then
        if (b - 240) * 262144 + (b1 - 128) * 4096 + (b2 - 128) * 64 + (b3 - 128) < 65536 ∨
           1114111 < (b - 240) * 262144 + (b1 - 128) * 4096 + (b2 - 128) * 64 + (b3 - 128)
        then none
        else some ((b - 240) * 262144 + (b1 - 128) * 4096 + (b2 - 128) * 64 + (b3 - 128),
          rest1)
      else none from rfl] at h
    split_ifs at h
    simp only [Option.some.injEq, Prod.mk.injEq] at h
    rw [h.2]

theorem utf8Step_some_length (bs : List Nat) (n : Nat) (rest2 : List Nat)
    (h : utf8Step bs = some (n, rest2)) : rest2.length < bs.length := by
  match bs with
  | [] => exact absurd h (by simp [utf8Step])
  | b :: rest =>
    rw [utf8Step_cons] at h
    split_ifs at h
    · simp only [Option.some.injEq, Prod.mk.injEq] at h
      rw [← h.2]
      simp [Nat.lt_succ_iff]
    · obtain ⟨b1, hb1⟩ := utf8Step2_shape b rest n rest2 h
      rw [hb1]
      simp only [List.length_cons]
      omega
    · obtain ⟨b1, b2, hb⟩ := utf8Step3_shape b rest n rest2 h
      rw [hb]
      simp only [List.length_cons]
      omega
    · obtain ⟨b1, b2, b3, hb⟩ := utf8Step4_shape b rest n rest2 h
      rw [hb]
      simp only [List.length_cons]
      omega

theorem utf8DecodeAux_congr :
    ∀ fuel fuel' bs, bs.length ≤ fuel → bs.length ≤ fuel' →
      utf8DecodeAux fuel bs = utf8DecodeAux fuel' bs := by
  intro fuel
  induction fuel with
  | zero =>
    intro fuel' bs hb _
    have hnil : bs = [] := List.eq_nil_of_length_eq_zero (by omega)
    subst hnil
    cases fuel' <;> rfl
  | succ f ih =>
    intro fuel' bs hb hb'
    cases bs with
    | nil => cases fuel' <;> rfl
    | cons b rest =>
      cases fuel' with
      | zero => exact absurd hb' (by simp)
      | succ f' =>
        rw [show utf8DecodeAux (f + 1) (b :: rest) =
          match utf8Step (b :: rest) with
          | none => none
          | some (n, rest2) => (utf8DecodeAux f rest2).map (fun s => Char.ofNat n :: s)
          from rfl]
        rw [show utf8DecodeAux (f' + 1) (b :: rest) =
          match utf8Step (b :: rest) with
          | none => none
          | some (n, rest2) => (utf8DecodeAux f' rest2).map (fun s => Char.ofNat n :: s)
          from rfl]
        cases hs : utf8Step (b :: rest) with
        | none => rfl
        | some p =>
          obtain ⟨n, rest2⟩ := p
          have hlen := utf8Step_some_length (b :: rest) n rest2 hs
          simp only [List.length_cons] at hlen hb hb'
          show (utf8DecodeAux f rest2).map (fun s => Char.ofNat n :: s) =
            (utf8DecodeAux f' rest2).map (fun s => Char.ofNat n :: s)
          rw [ih f' rest2 (by omega) (by omega)]

theorem utf8Decode_nil : utf8Decode [] = some [] := rfl

theorem utf8Decode_step (bs : List Nat) (n : Nat) (rest2 : List Nat)
    (h : utf8Step bs = some (n, rest2)) :
    utf8Decode bs = (utf8Decode rest2).map (fun s => Char.ofNat n :: s) := by
  match bs with
  | [] => exact absurd h (by simp [utf8Step])
  | b :: rest =>
    have hlen := utf8Step_some_length (b :: rest) n rest2 h
    simp only [List.length_cons] at hlen
    show utf8DecodeAux (rest.length + 1) (b :: rest) = _
    rw [show utf8DecodeAux (rest.length + 1) (b :: rest) =
      match utf8Step (b :: rest) with
      | none => none
      | some (n, rest3) => (utf8DecodeAux rest.length rest3).map (fun s => Char.ofNat n :: s)
      from rfl]
    rw [h]
    show (utf8DecodeAux rest.length rest2).map _ = (utf8DecodeAux rest2.length rest2).map _
    rw [utf8DecodeAux_congr rest.length rest2.length rest2 (by omega) le_rfl]

theorem char_toNat_lt (c : Char) : c.toNat < 1114112 := by
  have hval : Nat.isValidChar c.toNat := c.valid
  rcases hval with h | ⟨_, h⟩ <;> omega

theorem char_not_surrogate (c : Char) : ¬(55296 ≤ c.toNat ∧ c.toNat < 57344) := by
  have hval : Nat.isValidChar c.toNat := c.valid
  rcases hval with h | ⟨h, _⟩ <;> omega

theorem utf8EncodeChar_eq1 (c : Char) (h : c.toNat < 128) :
    utf8EncodeChar c = [c.toNat] := by
  unfold utf8EncodeChar
  rw [if_pos h]

theorem utf8EncodeChar_eq2 (c : Char) (h : ¬c.toNat < 128) (h' : c.toNat < 2048) :
    utf8EncodeChar c = [192 + c.toNat / 64, 128 + c.toNat % 64] := by
  unfold utf8EncodeChar
  rw [if_neg h, if_pos h']

theorem utf8EncodeChar_eq3 (c : Char) (h : ¬c.toNat < 2048) (h' : c.toNat < 65536) :
    utf8EncodeChar c =
      [224 + c.toNat / 4096, 128 + (c.toNat / 64) % 64, 128 + c.toNat % 64] := by
  unfold utf8EncodeChar
  rw [if_neg (by omega), if_neg h, if_pos h']

theorem utf8EncodeChar_eq4 (c : Char) (h : ¬c.toNat < 65536) :
    utf8EncodeChar c =
      [240 + c.toNat / 262144, 128 + (c.toNat / 4096) % 64,
       128 + (c.toNat / 64) % 64, 128 + c.toNat % 64] := by
  unfold utf8EncodeChar
  rw [if_neg (by omega), if_neg (by omega), if_neg h]

theorem utf8Step_encodeChar (c : Char) (bs : List Nat) :
    utf8Step (utf8EncodeChar c ++ bs) = some (c.toNat, bs) := by
  have hlt : c.toNat < 1114112 := char_toNat_lt c
  have hsur := char_not_surrogate c
  by_cases h1 : c.toNat < 128
  · rw [utf8EncodeChar_eq1 c h1]
    show utf8Step (c.toNat :: bs) = _
    rw [utf8Step_cons, if_pos h1]
  · by_cases h2 : c.toNat < 2048
    · rw [utf8EncodeChar_eq2 c h1 h2]
      show utf8Step ((192 + c.toNat / 64) :: (128 + c.toNat % 64) :: bs) = _
      rw [utf8Step_cons, if_neg (by omega), if_neg (by omega), if_pos (by omega)]
      rw [show utf8Step2 (192 + c.toNat / 64) ((128 + c.toNat % 64) :: bs) =
        if 128 ≤ 128 + c.toNat % 64 ∧ 128 + c.toNat % 64 < 192 then
          some ((192 + c.toNat / 64 - 192) * 64 + (128 + c.toNat % 64 - 128), bs)
        else none from rfl]
      rw [if_pos (by omega)]
      have hval : (192 + c.toNat / 64 - 192) * 64 + (128 + c.toNat % 64 - 128) = c.toNat := by
        omega
      rw [hval]
    · by_cases h3 : c.toNat < 65536
      · rw [utf8EncodeChar_eq3 c h2 h3]
        show utf8Step ((224 + c.toNat / 4096) :: (128 + (c.toNat / 64) % 64) ::
          (128 + c.toNat % 64) :: bs) = _
        rw [utf8Step_cons, if_neg (by omega), if_neg (by omega), if_neg (by omega),
          if_pos (by omega)]
        rw [show utf8Step3 (224 + c.toNat / 4096)
            ((128 + (c.toNat / 64) % 64) :: (128 + c.toNat % 64) :: bs) =
          if (128 ≤ 128 + (c.toNat / 64) % 64 ∧ 128 + (c.toNat / 64) % 64 < 192) ∧
             (128 ≤ 128 + c.toNat % 64 ∧ 128 + c.toNat % 64 < 192) then
            if (224 + c.toNat / 4096 - 224) * 4096 + (128 + (c.toNat / 64) % 64 - 128) * 64 +
                (128 + c.toNat % 64 - 128) < 2048 ∨
               (55296 ≤ (224 + c.toNat / 4096 - 224) * 4096 +
                  (128 + (c.toNat / 64) % 64 - 128) * 64 + (128 + c.toNat % 64 - 128) ∧
                (224 + c.toNat / 4096 - 224) * 4096 + (128 + (c.toNat / 64) % 64 - 128) * 64 +
                  (128 + c.toNat % 64 - 128) < 57344) then none
            else some ((224 + c.toNat / 4096 - 224) * 4096 +
              (128 + (c.toNat / 64) % 64 - 128) * 64 + (128 + c.toNat % 64 - 128), bs)
          else none from rfl]
        rw [if_pos (by omega), if_neg (by omega)]
        have hval : (224 + c.toNat / 4096 - 224) * 4096 +
            (128 + (c.toNat / 64) % 64 - 128) * 64 + (128 + c.toNat % 64 - 128) = c.toNat := by
          omega
        rw [hval]
      · rw [utf8EncodeChar_eq4 c h3]
        show utf8Step ((240 + c.toNat / 262144) :: (128 + (c.toNat / 4096) % 64) ::
          (128 + (c.toNat / 64) % 64) :: (128 + c.toNat % 64) :: bs) = _
        rw [utf8Step_cons, if_neg (by omega), if_neg (by omega), if_neg (by omega),
          if_neg (by omega), if_pos (by omega)]
        rw [show utf8Step4 (240 + c.toNat / 262144)
            ((128 + (c.toNat / 4096) % 64) :: (128 + (c.toNat / 64) % 64) ::
              (128 + c.toNat % 64) :: bs) =
          if (128 ≤ 128 + (c.toNat / 4096) % 64 ∧ 128 + (c.toNat / 4096) % 64 < 192) ∧
             (128 ≤ 128 + (c.toNat / 64) % 64 ∧ 128 + (c.toNat / 64) % 64 < 192) ∧
             (128 ≤ 128 + c.toNat % 64 ∧ 128 + c.toNat % 64 < 192) then
            if (240 + c.toNat / 262144 - 240) * 262144 +
                (128 + (c.toNat / 4096) % 64 - 128) * 4096 +
                (128 + (c.toNat / 64) % 64 - 128) * 64 + (128 + c.toNat % 64 - 128) < 65536 ∨
               1114111 < (240 + c.toNat / 262144 - 240) * 262144 +
                (128 + (c.toNat / 4096) % 64 - 128) * 4096 +
                (128 + (c.toNat / 64) % 64 - 128) * 64 + (128 + c.toNat % 64 - 128)
            then none
            else some ((240 + c.toNat / 262144 - 240) * 262144 +
              (128 + (c.toNat / 4096) % 64 - 128) * 4096 +
              (128 + (c.toNat / 64) % 64 - 128) * 64 + (128 + c.toNat % 64 - 128), bs)
          else none from rfl]
        rw [if_pos (by omega), if_neg (by omega)]
        have hval : (240 + c.toNat / 262144 - 240) * 262144 +
            (128 + (c.toNat / 4096) % 64 - 128) * 4096 +
            (128 + (c.toNat / 64) % 64 - 128) * 64 + (128 + c.toNat % 64 - 128) = c.toNat := by
          omega
        rw [hval]

theorem utf8DecodeEncode (c : Char) (bs : List Nat) :
    utf8Decode (utf8EncodeChar c ++ bs) = (utf8Decode bs).map (fun s => c :: s) := by
  rw [utf8Decode_step (utf8EncodeChar c ++ bs) c.toNat bs (utf8Step_encodeChar c bs),
    Char.ofNat_toNat]

theorem utf8EncodeStr_nil : utf8EncodeStr [] = [] := rfl

theorem utf8EncodeStr_cons (c : Char) (s : List Char) :
    utf8EncodeStr (c :: s) = utf8EncodeChar c ++ utf8EncodeStr s := by
  unfold utf8EncodeStr
  rw [List.map_cons, List.flatten_cons]

theorem utf8Decode_encodeStr : ∀ s : List Char, utf8Decode (utf8EncodeStr s) = some s := by
  intro s
  induction s with
  | nil => rfl
  | cons c s ih =>
    rw [utf8EncodeStr_cons, utf8DecodeEncode, ih]
    rfl

theorem utf8EncodeChar_lt (c : Char) : ∀ b ∈ utf8EncodeChar c, b < 256 := by
  have hlt : c.toNat < 1114112 := char_toNat_lt c
  intro b hb
  by_cases h1 : c.toNat < 128
  · rw [utf8EncodeChar_eq1 c h1] at hb
    simp only [List.mem_singleton] at hb
    omega
  · by_cases h2 : c.toNat < 2048
    · rw [utf8EncodeChar_eq2 c h1 h2] at hb
      simp only [List.mem_cons, List.mem_singleton] at hb
      rcases hb with rfl | rfl | hb
      · omega
      · omega
      · exact absurd hb (List.not_mem_nil b)
    · by_cases h3 : c.toNat < 65536
      · rw [utf8EncodeChar_eq3 c h2 h3] at hb
        simp only [List.mem_cons, List.mem_singleton] at hb
        rcases hb with rfl | rfl | rfl | hb
        · omega
        · omega
        · omega
        · exact absurd hb (List.not_mem_nil b)
      · rw [utf8EncodeChar_eq4 c h3] at hb
        simp only [List.mem_cons, List.mem_singleton] at hb
        rcases hb with rfl | rfl | rfl | rfl | hb
        · omega
        · omega
        · omega
        · omega
        · exact absurd hb (List.not_mem_nil b)

theorem utf8EncodeStr_lt : ∀ (s : List Char) (b : Nat), b ∈ utf8EncodeStr s → b < 256 := by
  intro s
  induction s with
  | nil => intro b hb; exact absurd (utf8EncodeStr_nil ▸ hb) (List.not_mem_nil b)
  | cons c s ih =>
    intro b hb
    rw [utf8EncodeStr_cons] at hb
    rcases List.mem_append.mp hb with h | h
    · exact utf8EncodeChar_lt c b h
    · exact ih b h

theorem utf8EncodeChar_head_ne_zero (c : Char) (h : c.toNat ≠ 0) :
    ∃ b t, utf8EncodeChar c = b :: t ∧ b ≠ 0 := by
  by_cases h1 : c.toNat < 128
  · exact ⟨c.toNat, [], utf8EncodeChar_eq1 c h1, h⟩
  · by_cases h2 : c.toNat < 2048
    · exact ⟨192 + c.toNat / 64, [128 + c.toNat % 64], utf8EncodeChar_eq2 c h1 h2, by omega⟩
    · by_cases h3 : c.toNat < 65536
      · exact ⟨224 + c.toNat / 4096, [128 + (c.toNat / 64) % 64, 128 + c.toNat % 64],
          utf8EncodeChar_eq3 c h2 h3, by omega⟩
      · exact ⟨240 + c.toNat / 262144,
          [128 + (c.toNat / 4096) % 64, 128 + (c.toNat / 64) % 64, 128 + c.toNat % 64],
          utf8EncodeChar_eq4 c h3, by omega⟩

theorem text_to_int_eq (s : List Char) :
    text_to_int s = valLSB 256 (utf8EncodeStr s).reverse := by
  unfold text_to_int
  rw [foldl_mul_add 256, Nat.zero_mul, Nat.zero_add]

/-- C3 amended: `decodeToText(encodeText(S)) = S` holds for every string `S`
that is non-empty, does not start with the NUL character, and whose big-endian
UTF-8 byte integer is not a multiple of 32; the excluded cases genuinely fail
(the empty string decodes to the one-character NUL string, leading NUL bytes
are dropped by the minimal byte representation, and a trailing zero base-32
digit is destroyed by the decoder's padding strip). -/
theorem text_roundtrip (c : Char) (s : List Char) (h0 : c.toNat ≠ 0)
    (h32 : text_to_int (c :: s) % 32 ≠ 0) :
    decode_to_text (encode_text (c :: s)) = some (c :: s) := by
  obtain ⟨b0, t0, hb0, hb0ne⟩ := utf8EncodeChar_head_ne_zero c h0
  have hbs : utf8EncodeStr (c :: s) = b0 :: (t0 ++ utf8EncodeStr s) := by
    rw [utf8EncodeStr_cons, hb0]
    rfl
  have hval : text_to_int (c :: s) = valLSB 256 (utf8EncodeStr (c :: s)).reverse :=
    text_to_int_eq _
  have hlast : (utf8EncodeStr (c :: s)).reverse.getLast? = some b0 := by
    rw [List.getLast?_reverse, hbs]
    rfl
  have hlast' : (utf8EncodeStr (c :: s)).reverse.getLast? ≠ some 0 := by
    rw [hlast]
    simp [hb0ne]
  have hrev_ne : (utf8EncodeStr (c :: s)).reverse ≠ [] := by
    rw [hbs]
    simp
  have hpos : text_to_int (c :: s) ≠ 0 := by
    rw [hval]
    have := valLSB_pos 256 (by omega) _ hrev_ne hlast'
    omega
  have hdec : crypttext_to_int (int_to_crypttext (text_to_int (c :: s))) =
      Except.ok (text_to_int (c :: s)) := crypt_roundtrip _ (Or.inr h32)
  show decode_to_text (int_to_crypttext (text_to_int (c :: s))) = some (c :: s)
  unfold decode_to_text
  rw [hdec]
  show int_to_text (text_to_int (c :: s)) = some (c :: s)
  unfold int_to_text
  rw [if_neg hpos]
  have hbytes : bytesLSB (text_to_int (c :: s)) = (utf8EncodeStr (c :: s)).reverse := by
    rw [hval]
    show natDigits 256 (valLSB 256 (utf8EncodeStr (c :: s)).reverse) = _
    exact natDigits_valLSB 256 (by omega) _
      (fun d hd => utf8EncodeStr_lt (c :: s) d (List.mem_reverse.mp hd)) hlast'
  rw [hbytes, List.reverse_reverse]
  exact utf8Decode_encodeStr (c :: s)

theorem splitHyphen_int_to_crypttext (n : Nat) (hn : n ≠ 0) :
    splitHyphen (int_to_crypttext n) =
      (makeGroups (((digitsLSB n).map charOf).reverse)).map List.reverse := by
  have hBASE : (2 : Nat) ≤ BASE := two_le_BASE
  have hds_ne : digitsLSB n ≠ [] := natDigits_ne_nil BASE hBASE n hn
  have hcs_ne : ((digitsLSB n).map charOf).reverse ≠ [] := by
    intro hh
    apply hds_ne
    have hl := congrArg List.length hh
    simpa using hl
  have henc : int_to_crypttext n =
      joinHyphen ((makeGroups (((digitsLSB n).map charOf).reverse)).map List.reverse) := by
    unfold int_to_crypttext
    rw [if_neg hn]
  have hg_ne : (makeGroups (((digitsLSB n).map charOf).reverse)).map List.reverse ≠ [] := by
    intro hh
    apply makeGroups_ne_nil _ hcs_ne
    have hl := congrArg List.length hh
    simpa using hl
  have hnohyp :
      ∀ g ∈ (makeGroups (((digitsLSB n).map charOf).reverse)).map List.reverse,
        '-' ∉ g := by
    intro g hg hmem
    obtain ⟨g₀, hg₀, rfl⟩ := List.mem_map.mp hg
    rw [List.mem_reverse] at hmem
    rcases makeGroups_mem _ g₀ '-' hg₀ hmem with h2 | h2
    · rw [List.mem_reverse] at h2
      obtain ⟨d, hd, hEq⟩ := List.mem_map.mp h2
      exact hyphen_not_mem_CHARSET (hEq ▸ charOf_mem d (natDigits_lt BASE hBASE n d hd))
    · exact absurd h2 (by decide)
  rw [henc]
  exact splitHyphen_joinHyphen _ hg_ne hnohyp

/-- C1: the claim `decodeToNumber(encodeNumber(str(N))) == N` for every
non-negative integer fails on the code: for `N = 32` (base-32 digits `1, 0`)
the encoder pads and the decoder's `rstrip('A')` also strips the genuine
trailing zero digit, so decoding returns `1`, not `32`. -/
theorem roundtrip_fails_at_32 :
    crypttext_to_int (int_to_crypttext 32) = Except.ok 1 ∧
      crypttext_to_int (int_to_crypttext 32) ≠ Except.ok 32 := by
  refine ⟨rfl, ?_⟩
  intro h
  rw [show crypttext_to_int (int_to_crypttext 32) = Except.ok 1 from rfl] at h
  injection h with h'
  omega

/-- C2 counterexample: the encoder does not implement Policy A. At `N = 1`
the code produces `AAAB` (padded to width 4 and block-reversed) while the
Policy A format of the specification is the single digit `B`; removing
hyphens does not yield the most-significant-first digit sequence. -/
theorem encode_not_policyA_at_1 :
    int_to_crypttext 1 = ['A', 'A', 'A', 'B'] ∧
      specEncodeNumberPolicyA 1 = ['B'] ∧
      int_to_crypttext 1 ≠ specEncodeNumberPolicyA 1 ∧
      (int_to_crypttext 1).filter (fun c => c ≠ '-') ≠ ((digitsLSB 1).map charOf).reverse := by
  refine ⟨rfl, rfl, ?_, ?_⟩ <;> decide

/-- C2 amended: for every `N ≠ 0` the encoded string consists of
hyphen-separated blocks obtained by right-padding the most-significant-first
digit-character sequence with the zero character `'A'` to a multiple of 4 and
reversing each 4-character block: reversing each block back and concatenating
recovers the digit sequence followed by the `'A'` padding. -/
theorem encode_blocks_padded_reversed (n : Nat) (hn : n ≠ 0) :
    ((splitHyphen (int_to_crypttext n)).map List.reverse).flatten =
      ((digitsLSB n).map charOf).reverse ++
        List.replicate ((4 - (((digitsLSB n).map charOf).reverse).length % 4) % 4) 'A' := by
  rw [splitHyphen_int_to_crypttext n hn, map_reverse_map_reverse, flatten_makeGroups]

theorem encode_blocks_padded_reversed_witness :
    ((splitHyphen (int_to_crypttext 34)).map List.reverse).flatten =
      ((digitsLSB 34).map charOf).reverse ++
        List.replicate ((4 - (((digitsLSB 34).map charOf).reverse).length % 4) % 4) 'A' :=
  encode_blocks_padded_reversed 34 (by decide)

/-- C3 counterexample: the text round trip fails for the empty string. Its
UTF-8 byte sequence is empty, so it encodes through the integer `0`, and
decoding maps `0` to the one-character NUL string, not the empty string. -/
theorem text_roundtrip_fails_empty :
    decode_to_text (encode_text []) = some [Char.ofNat 0] ∧
      decode_to_text (encode_text []) ≠ some [] := by
  refine ⟨rfl, ?_⟩
  intro h
  rw [show decode_to_text (encode_text []) = some [Char.ofNat 0] from rfl] at h
  injection h with h'
  exact List.cons_ne_nil _ _ h'

theorem text_roundtrip_witness :
    ('A'.toNat ≠ 0) ∧ text_to_int ['A'] % 32 ≠ 0 ∧
      decode_to_text (encode_text ['A']) = some ['A'] :=
  ⟨by decide, by decide, text_roundtrip 'A' [] (by decide) (by decide)⟩

/-- C4: whenever the input, after uppercasing and with hyphen separators
removed, contains a character outside the 32-symbol alphabet, decoding fails
with an error carrying an offending character; it never returns a value. -/
theorem decode_invalid_char (ct : List Char)
    (h : ∃ c, c ∈ (ct.map asciiUpper).filter (fun x => x ≠ '-') ∧ c ∉ CHARSET) :
    ∃ c, crypttext_to_int ct = Except.error c ∧ c ∉ CHARSET := by
  obtain ⟨c, hcf, hcn⟩ := h
  have hc3 := List.mem_filter.mp hcf
  have hcd : c ≠ '-' := by simpa using hc3.2
  unfold crypttext_to_int
  apply foldDigits_error
  refine ⟨c, ?_, hcn⟩
  have hcA : c ≠ 'A' := fun hh => hcn (by rw [hh]; exact A_mem_CHARSET)
  refine mem_rstripA c _ ?_ hcA
  have hc2 : c ∈ (splitHyphen (ct.map asciiUpper)).flatten := by
    rw [flatten_splitHyphen]
    exact hcf
  obtain ⟨g, hg, hcg⟩ := List.mem_flatten.mp hc2
  exact List.mem_flatten.mpr
    ⟨g.reverse, List.mem_map.mpr ⟨g, hg, rfl⟩, List.mem_reverse.mpr hcg⟩

theorem decode_invalid_char_witness :
    ∃ c, crypttext_to_int ['A', 'A', 'A', '#'] = Except.error c ∧ c ∉ CHARSET :=
  decode_invalid_char ['A', 'A', 'A', '#'] ⟨'#', by decide, by decide⟩

/-- C5: every character of every encoded output is a member of the 32-symbol
uppercase alphabet or the hyphen separator. -/
theorem encode_alphabet_closure (n : Nat) (c : Char) (h : c ∈ int_to_crypttext n) :
    c ∈ CHARSET ∨ c = '-' :=
  int_to_crypttext_mem n c h

theorem encode_alphabet_closure_witness : 'B' ∈ CHARSET ∨ 'B' = '-' :=
  encode_alphabet_closure 34 'B' (by decide)

/-- C6: encoding `0` returns exactly the alphabet's index-0 character `'A'`
via the dedicated zero rule; the general division loop contributes no digits
for `0` (it yields the empty digit list). -/
theorem encode_zero_single_zero_char :
    int_to_crypttext 0 = [charOf 0] ∧ charOf 0 = 'A' ∧ digitsLSB 0 = [] :=
  ⟨rfl, rfl, rfl⟩

/-- C7: whenever the decoded integer is `0`, decoding to text yields the
one-character NUL payload, never the empty string. -/
theorem decode_zero_to_nul (ct : List Char) (h : crypttext_to_int ct = Except.ok 0) :
    decode_to_text ct = some [Char.ofNat 0] := by
  unfold decode_to_text
  rw [h]
  rfl

theorem decode_zero_to_nul_witness :
    crypttext_to_int ['A'] = Except.ok 0 ∧ decode_to_text ['A'] = some [Char.ofNat 0] :=
  ⟨rfl, decode_zero_to_nul ['A'] rfl⟩

/-- C8: decoding `ZZZZ-ZZZZ` yields the integer with eight base-32 digits of
value 23, namely `23 * (32 ^ 8 - 1) / 31 = 815766691575`. -/
theorem decode_zzzz_zzzz :
    decode_to_number ['Z', 'Z', 'Z', 'Z', '-', 'Z', 'Z', 'Z', 'Z'] =
      Except.ok (23 * (32 ^ 8 - 1) / 31) ∧
      23 * (32 ^ 8 - 1) / 31 = 815766691575 := by
  refine ⟨rfl, ?_⟩
  decide

/-- C9: for every `N ≥ 1` every hyphen-separated block of the encoded string
has exactly 4 characters (the final partial group is right-padded with the
zero character before the per-group reversal). -/
theorem encode_blocks_length_four (n : Nat) (h : 1 ≤ n) :
    ∀ g ∈ splitHyphen (int_to_crypttext n), g.length = 4 := by
  intro g hg
  rw [splitHyphen_int_to_crypttext n (by omega)] at hg
  obtain ⟨g₀, hg₀, rfl⟩ := List.mem_map.mp hg
  rw [List.length_reverse]
  exact makeGroups_length_four _ g₀ hg₀

theorem encode_blocks_length_four_witness : (['A', 'A', 'A', 'B'] : List Char).length = 4 :=
  encode_blocks_length_four 1 (by decide) ['A', 'A', 'A', 'B'] (by decide)

/-- C10: decoding performs no structural grouping validation: every input made
of alphabet characters (in either case) and hyphens decodes to some integer,
and every input made only of `'A'`, `'a'` and hyphens (the empty string
included) decodes to `0`. -/
theorem decode_no_grouping_validation (ct : List Char)
    (h : ∀ c ∈ ct, asciiUpper c ∈ CHARSET ∨ c = '-') :
    (∃ n, crypttext_to_int ct = Except.ok n) ∧
      ((∀ c ∈ ct, c = 'A' ∨ c = 'a' ∨ c = '-') → crypttext_to_int ct = Except.ok 0) := by
  constructor
  · unfold crypttext_to_int
    apply foldDigits_ok
    intro c hc
    have hc1 : c ∈ ((splitHyphen (ct.map asciiUpper)).map List.reverse).flatten :=
      mem_of_mem_rstripA c _ hc
    have hc2 : c ∈ (splitHyphen (ct.map asciiUpper)).flatten := by
      obtain ⟨g, hg, hcg⟩ := List.mem_flatten.mp hc1
      obtain ⟨g₀, hg₀, rfl⟩ := List.mem_map.mp hg
      exact List.mem_flatten.mpr ⟨g₀, hg₀, List.mem_reverse.mp hcg⟩
    rw [flatten_splitHyphen] at hc2
    have hc3 := List.mem_filter.mp hc2
    obtain ⟨c₀, hc₀, rfl⟩ := List.mem_map.mp hc3.1
    have hcne : asciiUpper c₀ ≠ '-' := by simpa using hc3.2
    rcases h c₀ hc₀ with hmem | hhyp
    · exact hmem
    · rw [hhyp, asciiUpper_hyphen] at hcne
      exact absurd rfl hcne
  · intro hall
    unfold crypttext_to_int
    have hstrip : rstripA ((splitHyphen (ct.map asciiUpper)).map List.reverse).flatten
        = [] := by
      apply rstripA_all_A
      intro c hc
      obtain ⟨g, hg, hcg⟩ := List.mem_flatten.mp hc
      obtain ⟨g₀, hg₀, rfl⟩ := List.mem_map.mp hg
      have hc2 : c ∈ (splitHyphen (ct.map asciiUpper)).flatten :=
        List.mem_flatten.mpr ⟨g₀, hg₀, List.mem_reverse.mp hcg⟩
      rw [flatten_splitHyphen] at hc2
      have hc3 := List.mem_filter.mp hc2
      obtain ⟨c₀, hc₀, rfl⟩ := List.mem_map.mp hc3.1
      have hcne : asciiUpper c₀ ≠ '-' := by simpa using hc3.2
      rcases hall c₀ hc₀ with rfl | rfl | rfl
      · decide
      · decide
      · exact absurd asciiUpper_hyphen hcne
    rw [hstrip]
    rfl

theorem decode_no_grouping_validation_witness :
    (∃ n, crypttext_to_int ['a', '-', 'A'] = Except.ok n) ∧
      ((∀ c ∈ (['a', '-', 'A'] : List Char), c = 'A' ∨ c = 'a' ∨ c = '-') →
        crypttext_to_int ['a', '-', 'A'] = Except.ok 0) :=
  decode_no_grouping_validation ['a', '-', 'A'] (by decide)

end NewCode
